/-
Verification of the manifest-driven MSVC provisioning tool (portable-msvc.py).

The Python source is shallowly embedded: byte strings become `List Nat`
(each element a byte value), Python text strings become `String` or
`List Char`, stateful code (download cache, download counters) becomes
explicit state passing, and fallible operations return `Option`/`Except`.
`hashlib.sha256(...).hexdigest()` is embedded as a full executable SHA-256
over `List Nat` producing the lowercase hex digest string.
-/
import Mathlib

set_option autoImplicit false
set_option maxRecDepth 10000

/-! ## SHA-256 (embedding of `hashlib.sha256(data).hexdigest()`) -/

/-- 2^32, the word modulus for SHA-256 arithmetic. -/
def m32 : Nat := 4294967296

/-- Right rotation of a 32-bit word (input assumed < 2^32). -/
def rotr32 (x n : Nat) : Nat := ((x >>> n) ||| ((x <<< (32 - n)) % m32)) % m32

/-- The 64 SHA-256 round constants (FIPS 180-4). -/
def sha256K : List Nat :=
  [1116352408, 1899447441, 3049323471, 3921009573, 961987163, 1508970993,
   2453635748, 2870763221, 3624381080, 310598401, 607225278, 1426881987,
   1925078388, 2162078206, 2614888103, 3248222580, 3835390401, 4022224774,
   264347078, 604807628, 770255983, 1249150122, 1555081692, 1996064986,
   2554220882, 2821834349, 2952996808, 3210313671, 3336571891, 3584528711,
   113926993, 338241895, 666307205, 773529912, 1294757372, 1396182291,
   1695183700, 1986661051, 2177026350, 2456956037, 2730485921, 2820302411,
   3259730800, 3345764771, 3516065817, 3600352804, 4094571909, 275423344,
   430227734, 506948616, 659060556, 883997877, 958139571, 1322822218,
   1537002063, 1747873779, 1955562222, 2024104815, 2227730452, 2361852424,
   2428436474, 2756734187, 3204031479, 3329325298]

/-- The eight initial SHA-256 hash words (FIPS 180-4). -/
def sha256Init : List Nat :=
  [1779033703, 3144134277, 1013904242, 2773480762, 1359893119, 2600822924,
   528734635, 1541459225]

/-- Big-endian 8-byte encoding of a natural number (the length field of the padding). -/
def beBytes8 (n : Nat) : List Nat := (List.range 8).map (fun i => (n >>> (8 * (7 - i))) % 256)

/-- SHA-256 message padding: append 0x80, zeros, and the 64-bit big-endian bit length. -/
def sha256Pad (msg : List Nat) : List Nat :=
  let len := msg.length
  let zeros := (120 - ((len + 1) % 64)) % 64
  msg ++ 128 :: List.replicate zeros 0 ++ beBytes8 (8 * len)

/-- Group bytes into big-endian 32-bit words. -/
def bytesToWords : List Nat → List Nat
  | b0 :: b1 :: b2 :: b3 :: rest => (((b0 * 256 + b1) * 256 + b2) * 256 + b3) :: bytesToWords rest
  | _ => []

/-- Cut a list into blocks of 64 elements; `fuel` bounds the recursion (pass the length). -/
def chunk64 : Nat → List Nat → List (List Nat)
  | 0, _ => []
  | _, [] => []
  | fuel + 1, l => l.take 64 :: chunk64 fuel (l.drop 64)

/-- Next word of the SHA-256 message schedule, computed from the last 16 words. -/
def nextW (w : List Nat) : Nat :=
  let n := w.length
  let w15 := w.getD (n - 15) 0
  let w2 := w.getD (n - 2) 0
  let w16 := w.getD (n - 16) 0
  let w7 := w.getD (n - 7) 0
  let s0 := (rotr32 w15 7) ^^^ (rotr32 w15 18) ^^^ (w15 >>> 3)
  let s1 := (rotr32 w2 17) ^^^ (rotr32 w2 19) ^^^ (w2 >>> 10)
  (w16 + s0 + w7 + s1) % m32

/-- Extend the 16-word schedule by `n` further words (SHA-256 uses 48). -/
def extendSchedule : Nat → List Nat → List Nat
  | 0, w => w
  | n + 1, w => extendSchedule n (w ++ [nextW w])

/-- One SHA-256 compression round; the state is the eight words a..h. -/
def compressRound (st : List Nat) (kw : Nat × Nat) : List Nat :=
  let a := st.getD 0 0
  let b := st.getD 1 0
  let c := st.getD 2 0
  let d := st.getD 3 0
  let e := st.getD 4 0
  let f := st.getD 5 0
  let g := st.getD 6 0
  let h := st.getD 7 0
  let s1 := (rotr32 e 6) ^^^ (rotr32 e 11) ^^^ (rotr32 e 25)
  let ch := (e &&& f) ^^^ ((e ^^^ 4294967295) &&& g)
  let t1 := (h + s1 + ch + kw.1 + kw.2) % m32
  let s0 := (rotr32 a 2) ^^^ (rotr32 a 13) ^^^ (rotr32 a 22)
  let maj := (a &&& b) ^^^ (a &&& c) ^^^ (b &&& c)
  let t2 := (s0 + maj) % m32
  [(t1 + t2) % m32, a, b, c, (d + t1) % m32, e, f, g]

/-- Process one 64-byte chunk, updating the eight hash words. -/
def sha256Compress (h : List Nat) (chunk : List Nat) : List Nat :=
  let w := extendSchedule 48 (bytesToWords chunk)
  let st := (sha256K.zip w).foldl compressRound h
  List.zipWith (fun x y => (x + y) % m32) h st

/-- One lowercase hex digit. -/
def hexDigit (n : Nat) : Char := if n < 10 then Char.ofNat (48 + n) else Char.ofNat (87 + n)

/-- Lowercase hex rendering of one 32-bit word. -/
def wordHex (w : Nat) : List Char := (List.range 8).map (fun i => hexDigit ((w >>> (28 - 4 * i)) % 16))

/-- `hashlib.sha256(msg).hexdigest()`: the lowercase-hex SHA-256 digest of a byte string. -/
def sha256hex (msg : List Nat) : String :=
  let padded := sha256Pad msg
  let hs := (chunk64 padded.length padded).foldl sha256Compress sha256Init
  String.mk (hs.map wordHex).flatten

-- sanity checks of the SHA-256 embedding against the standard test vectors
example : sha256hex [] = "e3b0c44298fc1c149afbf4c8996fb92427ae41e4649b934ca495991b7852b855" := by decide
example : sha256hex [97, 98, 99] = "ba7816bf8f01cfea414140de5dae2223b00361a396177a9cb410ff61f20015ad" := by decide

/-! ## Cabinet scanner (embedding of `get_msi_cabs`, lines 68-74) -/

/-- Python byte-string slice `b[i:j]` for a possibly negative start index `i`
and a non-negative stop `j`: a negative start is taken relative to the end of
the string and clamped below at 0; the result is empty when the effective
start is at or beyond the stop. -/
def pySlice (b : List Nat) (i : Int) (j : Nat) : List Nat :=
  let start : Nat := if i < 0 then ((b.length : Int) + i).toNat else i.toNat
  (b.take j).drop start

/-- Linear search for `pat` inside `msi` at positions `≥ i`; `fuel` bounds the
recursion and is always passed large enough to cover the whole string. -/
def findFrom (msi pat : List Nat) : Nat → Nat → Option Nat
  | _, 0 => none
  | i, fuel + 1 => if pat.isPrefixOf (msi.drop i) then some i else findFrom msi pat (i + 1) fuel

/-- Python `msi.find(pat, start)`, returning `none` for Python's `-1`. -/
def pyFind (msi pat : List Nat) (start : Nat) : Option Nat :=
  findFrom msi pat start (msi.length + 1 - start)

/-- The 4-byte marker `b".cab"`. -/
def cabPat : List Nat := [46, 99, 97, 98]

/-- The slice `msi[index-32 : index+4]` taken at a located marker offset. -/
def cabWindow (msi : List Nat) (o : Nat) : List Nat := pySlice msi ((o : Int) - 32) (o + 4)

/-- Python `bytes.decode("ascii")`: succeeds only when every byte is < 128. -/
def decodeAscii (bs : List Nat) : Option String :=
  if bs.all (fun b => b < 128) then some (String.mk (bs.map Char.ofNat)) else none

/-- The `while True` loop of `get_msi_cabs`: repeatedly `find` the marker from
four past the previous hit, stop when absent, and yield the decoded slice.
A failing `decode` raises out of the generator, aborting the whole iteration,
which the caller (`list(get_msi_cabs(data))`) does not catch: this is the
`Except.error` outcome. `fuel` bounds the loop; located offsets grow by at
least 4 per step, so `msi.length + 1` iterations always suffice. -/
def cabLoop (msi : List Nat) : Nat → Nat → Except Unit (List String)
  | _, 0 => .ok []
  | index, fuel + 1 =>
    match pyFind msi cabPat (index + 4) with
    | none => .ok []
    | some o =>
      match decodeAscii (cabWindow msi o) with
      | none => .error ()
      | some s =>
        match cabLoop msi o fuel with
        | .ok rest => .ok (s :: rest)
        | .error e => .error e

/-- `list(get_msi_cabs(msi))`: the fully forced generator, an error if any
yield's ASCII decode raises. -/
def get_msi_cabs (msi : List Nat) : Except Unit (List String) :=
  cabLoop msi 0 (msi.length + 1)

/-- The sequence of located `.cab` marker offsets, mirroring `cabLoop`. -/
def cabOffsetsLoop (msi : List Nat) : Nat → Nat → List Nat
  | _, 0 => []
  | index, fuel + 1 =>
    match pyFind msi cabPat (index + 4) with
    | none => []
    | some o => o :: cabOffsetsLoop msi o fuel

/-- All marker offsets the scanner locates in `msi`. -/
def cabOffsets (msi : List Nat) : List Nat := cabOffsetsLoop msi 0 (msi.length + 1)

/-- Decoding each located window in turn, aborting at the first failure:
the observable behaviour of forcing the generator. -/
def decodeWindows (msi : List Nat) : List Nat → Except Unit (List String)
  | [] => .ok []
  | o :: rest =>
    match decodeAscii (cabWindow msi o) with
    | none => .error ()
    | some s =>
      match decodeWindows msi rest with
      | .ok l => .ok (s :: l)
      | .error e => .error e

/-- A blob of 32 `X` bytes immediately followed by `.cab` (the spec's test vector). -/
def blob32X : List Nat := List.replicate 32 88 ++ [46, 99, 97, 98]

/-- A blob with two markers whose first 32-byte window contains the non-ASCII
byte 200, while the second window is 32 `X` bytes. -/
def blobC3 : List Nat :=
  List.replicate 31 88 ++ [200] ++ [46, 99, 97, 98] ++ List.replicate 32 88 ++ [46, 99, 97, 98]

/-- A 36-byte blob whose only marker sits at offset 4: four bytes `ABCD`,
then `.cab`, then 28 `Y` bytes. -/
def blobC10 : List Nat := [65, 66, 67, 68] ++ [46, 99, 97, 98] ++ List.replicate 28 89

/-- The name yielded at the spec's 32-`X` test vector: 32 `X` characters
followed by `.cab` (36 characters in all). -/
def xName : String := String.mk (List.replicate 32 'X' ++ ".cab".data)

/-- Forcing the scanner is the same as decoding each located window in turn,
aborting at the first indecodable window. -/
theorem cabLoop_eq_decodeWindows (msi : List Nat) :
    ∀ fuel index, cabLoop msi index fuel = decodeWindows msi (cabOffsetsLoop msi index fuel) := by
  intro fuel
  induction fuel with
  | zero => intro _; rfl
  | succ n ih =>
    intro index
    simp only [cabLoop, cabOffsetsLoop]
    cases hf : pyFind msi cabPat (index + 4) with
    | none => rfl
    | some o =>
      simp only [decodeWindows]
      cases decodeAscii (cabWindow msi o) with
      | none => rfl
      | some s => rw [ih o]

/-- If the pattern occurs nowhere, the bounded search finds nothing. -/
theorem findFrom_none (msi pat : List Nat) (h : ∀ i, pat.isPrefixOf (msi.drop i) = false) :
    ∀ fuel i, findFrom msi pat i fuel = none := by
  intro fuel
  induction fuel with
  | zero => intro _; rfl
  | succ n ih => intro i; simp only [findFrom, h i, Bool.false_eq_true, if_false]; exact ih (i + 1)

/-- One indecodable window anywhere in the list makes the whole decode abort. -/
theorem decodeWindows_error_of_mem (msi : List Nat) :
    ∀ l, (∃ o ∈ l, decodeAscii (cabWindow msi o) = none) → decodeWindows msi l = .error () := by
  intro l
  induction l with
  | nil => rintro ⟨o, ho, _⟩; cases ho
  | cons o rest ih =>
    rintro ⟨o', ho', hd⟩
    cases List.mem_cons.mp ho' with
    | inl h =>
      subst h
      simp only [decodeWindows, hd]
    | inr h =>
      simp only [decodeWindows]
      cases hdo : decodeAscii (cabWindow msi o) with
      | none => rfl
      | some s => rw [ih ⟨o', h, hd⟩]

/-- C2, counterexample: on the blob of 32 `X` bytes followed by `.cab` the
scanner yields one name, but that name is the 36-character string ending in
`.cab`, not the bare 32 `X` characters the claim states. -/
theorem scan_yield_includes_marker_cex :
    get_msi_cabs blob32X = .ok [xName] ∧ xName ≠ String.mk (List.replicate 32 'X') :=
  ⟨rfl, by decide⟩

/-- C2, amended: for each located `.cab` marker the scanner yields the ASCII
decoding of the slice `msi[o-32:o+4]` — the 32-byte window together with the
4-byte marker itself; on 32 `X` bytes followed by `.cab` it yields exactly one
name, the 32 `X` characters followed by `.cab`; and on a blob in which `.cab`
occurs nowhere it yields the empty sequence. -/
theorem scan_yields_windows_with_marker :
    (∀ msi, get_msi_cabs msi = decodeWindows msi (cabOffsets msi))
    ∧ get_msi_cabs blob32X = .ok [xName]
    ∧ (∀ msi : List Nat, (∀ i, i < msi.length → cabPat.isPrefixOf (msi.drop i) = false) →
        get_msi_cabs msi = .ok []) := by
  refine ⟨fun msi => cabLoop_eq_decodeWindows msi (msi.length + 1) 0, rfl, fun msi hb => ?_⟩
  have h : ∀ i, cabPat.isPrefixOf (msi.drop i) = false := by
    intro i
    by_cases hi : i < msi.length
    · exact hb i hi
    · rw [List.drop_eq_nil_of_le (le_of_not_lt hi)]; rfl
  show cabLoop msi 0 (msi.length + 1) = .ok []
  simp only [cabLoop, pyFind, findFrom_none msi cabPat h]

/-- Closed instance of the amended C2 theorem at a markerless blob. -/
theorem scan_yields_windows_with_marker_witness : get_msi_cabs [0, 1, 2] = .ok [] :=
  scan_yields_windows_with_marker.2.2 [0, 1, 2] (by decide)

/-- C3, counterexample: on a blob with two `.cab` markers whose first window
contains the non-ASCII byte 200, the scan aborts as a whole — both markers are
located and the second window decodes fine, yet the forced scan is an error
that produces no names at all. -/
theorem scan_abort_cex :
    get_msi_cabs blobC3 = .error ()
    ∧ cabOffsets blobC3 = [32, 68]
    ∧ decodeAscii (cabWindow blobC3 68) = some xName :=
  ⟨rfl, rfl, rfl⟩

/-- C3, amended: a non-ASCII byte in any located 32-byte window aborts the
whole scan — the generator raises while being forced, so no names (in
particular none at subsequent markers) are produced. -/
theorem scan_aborts_on_bad_window :
    (∀ msi, (∃ o ∈ cabOffsets msi, decodeAscii (cabWindow msi o) = none) →
      get_msi_cabs msi = .error ())
    ∧ get_msi_cabs blobC3 = .error () := by
  refine ⟨fun msi hex => ?_, rfl⟩
  rw [show get_msi_cabs msi = cabLoop msi 0 (msi.length + 1) from rfl,
    cabLoop_eq_decodeWindows msi (msi.length + 1) 0]
  exact decodeWindows_error_of_mem msi (cabOffsets msi) hex

/-- Closed instance of the amended C3 theorem at the concrete two-marker blob. -/
theorem scan_aborts_on_bad_window_witness : get_msi_cabs blobC3 = .error () :=
  scan_aborts_on_bad_window.1 blobC3 ⟨32, by decide, by decide⟩

/-- C10, counterexample: on the 36-byte blob `ABCD.cab` + 28 `Y` bytes the
first (and only) located marker is at offset 4; the wrapped slice start
`36 + 4 - 32 = 8` equals the slice stop, so the scanner yields the empty
string — not the bare `.cab` marker the claim states. -/
theorem negative_slice_cex :
    get_msi_cabs blobC10 = .ok [""] ∧ ("" : String) ≠ ".cab" :=
  ⟨rfl, by decide⟩

/-- C10, amended: at a marker offset `o < 32` the slice start `o - 32` is
negative, so Python interprets it relative to the end of the blob and clamps
it below at zero: the window is `msi[max(0, len+o-32) : o+4]`; in particular
when `len ≥ 36` the effective start is at or beyond the stop and the yielded
window is empty (the empty string once decoded, not the bare marker). -/
theorem cab_window_negative_slice :
    (∀ (msi : List Nat) (o : Nat), o < 32 →
      cabWindow msi o = (msi.take (o + 4)).drop (msi.length + o - 32))
    ∧ (∀ (msi : List Nat) (o : Nat), o < 32 → 36 ≤ msi.length → cabWindow msi o = [])
    ∧ cabOffsets blobC10 = [4] ∧ get_msi_cabs blobC10 = .ok [""] := by
  have h1 : ∀ (msi : List Nat) (o : Nat), o < 32 →
      cabWindow msi o = (msi.take (o + 4)).drop (msi.length + o - 32) := by
    intro msi o ho
    simp only [cabWindow, pySlice]
    rw [if_pos (by omega : (o : Int) - 32 < 0)]
    congr 1
    omega
  refine ⟨h1, fun msi o ho hlen => ?_, rfl, rfl⟩
  rw [h1 msi o ho]
  apply List.drop_eq_nil_of_le
  have := List.length_take_le (o + 4) msi
  omega

/-- Closed instance of the amended C10 theorem at the concrete blob. -/
theorem cab_window_negative_slice_witness : cabWindow blobC10 4 = [] :=
  cab_window_negative_slice.2.1 blobC10 4 (by decide) (by decide)

/-! ## Integrity downloader (embedding of `download_progress`, lines 36-65) -/

/-- Python `str.lower()`. The digests handled here are ASCII hex strings, on
which `String.toLower` and Python `lower` agree. -/
def pyLower (s : String) : String := String.mk (s.data.map Char.toLower)

/-- The download-cache directory: filename to file bytes; a new write shadows
an older entry for the same name. -/
def lookupCache (cache : List (String × List Nat)) (k : String) : Option (List Nat) :=
  match cache with
  | [] => none
  | (k', v) :: rest => if k' = k then some v else lookupCache rest k

/-- The ambient mutable state `download_progress` touches: the `DOWNLOADS`
directory, the number of `urlopen` calls made, and the process-wide
`total_download` byte counter. -/
structure DPState where
  cache : List (String × List Nat)
  fetchCount : Nat
  totalDownload : Nat
deriving DecidableEq

/-- What a call to `download_progress` does: return the payload bytes, or
terminate the process via `exit("Hash mismatch ...")`. -/
inductive DPResult where
  | ok (data : List Nat)
  | hashMismatchExit
deriving DecidableEq

/-- The download path of `download_progress` (lines 45-65): the body is
streamed simultaneously to the cache file and an in-memory accumulator, so
the cache file holds the network bytes before the digest is compared; on
mismatch the process exits with the file left in place, otherwise the
process-wide byte counter grows and the bytes are returned. `net` maps each
URL to the bytes the network would deliver for it. -/
def freshDownload (net : String → List Nat) (url check filename : String) (st : DPState) :
    DPState × DPResult :=
  let data := net url
  let st1 : DPState :=
    { st with cache := (filename, data) :: st.cache, fetchCount := st.fetchCount + 1 }
  if pyLower check ≠ sha256hex data then
    (st1, .hashMismatchExit)
  else
    ({ st1 with totalDownload := st1.totalDownload + data.length }, .ok data)

/-- `download_progress(url, check, name, filename)`: if the cache file exists
and its SHA-256 digest equals the lowercased expected digest, return it with
no network access; otherwise download afresh. The `name` argument is only used
for progress printing and is ignored here. -/
def download_progress (net : String → List Nat) (url check _name filename : String)
    (st : DPState) : DPState × DPResult :=
  match lookupCache st.cache filename with
  | some data =>
    if sha256hex data = pyLower check then (st, .ok data)
    else freshDownload net url check filename st
  | none => freshDownload net url check filename st

/-- C4 (confirmed): when the downloaded bytes hash to something other than the
expected digest (compared case-insensitively, with no valid cached copy to
return instead), `download_progress` exits fatally, performs exactly one
network fetch (no retry), and the cache file it already wrote is left on disk
holding the downloaded bytes. -/
theorem download_mismatch_fatal (net : String → List Nat) (url check name filename : String)
    (st : DPState)
    (hmiss : ∀ d, lookupCache st.cache filename = some d → sha256hex d ≠ pyLower check)
    (hbad : sha256hex (net url) ≠ pyLower check) :
    (download_progress net url check name filename st).2 = DPResult.hashMismatchExit
    ∧ lookupCache (download_progress net url check name filename st).1.cache filename
        = some (net url)
    ∧ (download_progress net url check name filename st).1.fetchCount = st.fetchCount + 1 := by
  have hcond : pyLower check ≠ sha256hex (net url) := fun h => hbad h.symm
  have hfresh : freshDownload net url check filename st
      = (DPState.mk ((filename, net url) :: st.cache) (st.fetchCount + 1) st.totalDownload,
         DPResult.hashMismatchExit) := by
    simp [freshDownload, hcond]
  cases hc : lookupCache st.cache filename with
  | none => simp [download_progress, hc, hfresh, lookupCache]
  | some d =>
    have hne : ¬ sha256hex d = pyLower check := hmiss d hc
    simp [download_progress, hc, hne, hfresh, lookupCache]

/-- Closed instance of C4: a fresh state, a network payload of one zero byte,
and an expected digest that does not match it. -/
theorem download_mismatch_fatal_witness :
    (download_progress (fun _ => [0]) "u" "00" "n" "f" ⟨[], 0, 0⟩).2 = DPResult.hashMismatchExit
    ∧ lookupCache (download_progress (fun _ => [0]) "u" "00" "n" "f" ⟨[], 0, 0⟩).1.cache "f"
        = some [0]
    ∧ (download_progress (fun _ => [0]) "u" "00" "n" "f" ⟨[], 0, 0⟩).1.fetchCount = 0 + 1 :=
  download_mismatch_fatal (fun _ => [0]) "u" "00" "n" "f" ⟨[], 0, 0⟩
    (by intro d h; simp [lookupCache] at h) (by decide)

/-- C5 (confirmed): a cached file whose digest matches the expected digest is
returned with the state untouched — no network fetch, no bytes counted; and
two consecutive calls with the same url/digest/filename starting from a cold
cache perform exactly one network fetch in the first call, the second call
being a pure cache hit that changes nothing. -/
theorem download_cache_roundtrip (net : String → List Nat) (url check name filename : String) :
    (∀ (st : DPState) (data : List Nat), lookupCache st.cache filename = some data →
      sha256hex data = pyLower check →
      download_progress net url check name filename st = (st, .ok data))
    ∧ (∀ st : DPState, lookupCache st.cache filename = none →
      sha256hex (net url) = pyLower check →
      (download_progress net url check name filename st).2 = DPResult.ok (net url)
      ∧ (download_progress net url check name filename st).1.fetchCount = st.fetchCount + 1
      ∧ download_progress net url check name filename
          (download_progress net url check name filename st).1
        = ((download_progress net url check name filename st).1, .ok (net url))) := by
  have hhit : ∀ (st : DPState) (data : List Nat), lookupCache st.cache filename = some data →
      sha256hex data = pyLower check →
      download_progress net url check name filename st = (st, .ok data) := by
    intro st data hc hd
    simp [download_progress, hc, hd]
  refine ⟨hhit, fun st hc hd => ?_⟩
  have hpos : pyLower check = sha256hex (net url) := hd.symm
  have hfresh : download_progress net url check name filename st
      = (DPState.mk ((filename, net url) :: st.cache) (st.fetchCount + 1)
           (st.totalDownload + (net url).length),
         DPResult.ok (net url)) := by
    simp [download_progress, hc, freshDownload, hpos]
  refine ⟨by rw [hfresh], by rw [hfresh], ?_⟩
  rw [hfresh]
  exact hhit _ (net url) (by simp [lookupCache]) hd

/-- Closed instance of C5: the empty payload with its true digest, fetched
twice from a cold cache. -/
theorem download_cache_roundtrip_witness :
    (download_progress (fun _ => [])
      "u" "e3b0c44298fc1c149afbf4c8996fb92427ae41e4649b934ca495991b7852b855" "n" "f"
      ⟨[], 0, 0⟩).2 = DPResult.ok [] :=
  ((download_cache_roundtrip (fun _ => [])
      "u" "e3b0c44298fc1c149afbf4c8996fb92427ae41e4649b934ca495991b7852b855" "n" "f").2
    ⟨[], 0, 0⟩ rfl (by decide)).1

/-- C9 (confirmed): whenever `download_progress` returns bytes — on the
cache-hit path or the fresh-download path — their SHA-256 hex digest equals
the lowercased expected digest; unverified bytes are never returned. -/
theorem download_returns_only_verified (net : String → List Nat)
    (url check name filename : String) (st : DPState) (data : List Nat)
    (h : (download_progress net url check name filename st).2 = DPResult.ok data) :
    sha256hex data = pyLower check := by
  have hfresh : ∀ s : DPState, (freshDownload net url check filename s).2 = DPResult.ok data →
      sha256hex data = pyLower check := by
    intro s hf
    by_cases hd : pyLower check = sha256hex (net url)
    · simp [freshDownload, hd] at hf
      rw [← hf]
      exact hd.symm
    · simp [freshDownload, hd] at hf
  cases hc : lookupCache st.cache filename with
  | none =>
    apply hfresh st
    rw [← h]
    simp [download_progress, hc]
  | some d =>
    by_cases hd : sha256hex d = pyLower check
    · simp [download_progress, hc, hd] at h
      rw [← h]
      exact hd
    · apply hfresh st
      rw [← h]
      simp [download_progress, hc, hd]

/-- Closed instance of C9: a warm cache holding the empty payload. -/
theorem download_returns_only_verified_witness :
    sha256hex []
      = pyLower "e3b0c44298fc1c149afbf4c8996fb92427ae41e4649b934ca495991b7852b855" :=
  download_returns_only_verified (fun _ => [7])
    "u" "e3b0c44298fc1c149afbf4c8996fb92427ae41e4649b934ca495991b7852b855" "n" "f"
    ⟨[("f", [])], 0, 0⟩ [] (by decide)

/-! ## Version resolver (embedding of lines 150-151) -/

/-- Python string comparison `a < b`: lexicographic on code points, with a
strict prefix comparing as smaller. -/
def pyStrLtb : List Char → List Char → Bool
  | [], [] => false
  | [], _ :: _ => true
  | _ :: _, [] => false
  | a :: as, b :: bs =>
    if a.toNat < b.toNat then true
    else if b.toNat < a.toNat then false
    else pyStrLtb as bs

/-- One insertion step of an ascending sort under `pyStrLtb`. -/
def insertSorted (x : List Char) : List (List Char) → List (List Char)
  | [] => [x]
  | y :: ys => if pyStrLtb x y then x :: y :: ys else y :: insertSorted x ys

/-- Python `sorted(keys)` for a list of strings. -/
def pySort (keys : List (List Char)) : List (List Char) := keys.foldr insertSorted []

/-- One step of Python `max`: keep the current maximum unless the next item
compares strictly greater. -/
def pyMaxStep (cur item : List Char) : List Char := if pyStrLtb cur item then item else cur

/-- Python `max(items)` over strings; `none` on the empty list (Python raises). -/
def pyMax : List (List Char) → Option (List Char)
  | [] => none
  | x :: xs => some (xs.foldl pyMaxStep x)

/-- Line 150: `msvc_ver = args.msvc_version or max(sorted(msvc.keys()))` —
a missing requested version (or an empty one, which Python `or` treats as
falsy) selects `max(sorted(keys))`. -/
def resolveVersion (requested : Option (List Char)) (keys : List (List Char)) :
    Option (List Char) :=
  match requested with
  | some v => if v = [] then pyMax (pySort keys) else some v
  | none => pyMax (pySort keys)

theorem pyStrLtb_irrefl : ∀ a, pyStrLtb a a = false
  | [] => rfl
  | a :: as => by simp [pyStrLtb, pyStrLtb_irrefl as]

theorem pyStrLtb_trans : ∀ a b c, pyStrLtb a b = true → pyStrLtb b c = true →
    pyStrLtb a c = true := by
  intro a
  induction a with
  | nil =>
    intro b c hab hbc
    cases b with
    | nil => simp [pyStrLtb] at hab
    | cons b bs =>
      cases c with
      | nil => simp [pyStrLtb] at hbc
      | cons c cs => rfl
  | cons a as ih =>
    intro b c hab hbc
    cases b with
    | nil => simp [pyStrLtb] at hab
    | cons b bs =>
      cases c with
      | nil => simp [pyStrLtb] at hbc
      | cons c cs =>
        simp only [pyStrLtb] at hab hbc ⊢
        by_cases h1 : a.toNat < b.toNat
        · by_cases h2 : b.toNat < c.toNat
          · rw [if_pos (by omega : a.toNat < c.toNat)]
          · rw [if_neg h2] at hbc
            by_cases h2' : c.toNat < b.toNat
            · rw [if_pos h2'] at hbc
              exact (Bool.false_ne_true hbc).elim
            · rw [if_pos (by omega : a.toNat < c.toNat)]
        · rw [if_neg h1] at hab
          by_cases h1' : b.toNat < a.toNat
          · rw [if_pos h1'] at hab
            exact (Bool.false_ne_true hab).elim
          · rw [if_neg h1'] at hab
            by_cases h2 : b.toNat < c.toNat
            · rw [if_pos (by omega : a.toNat < c.toNat)]
            · rw [if_neg h2] at hbc
              by_cases h2' : c.toNat < b.toNat
              · rw [if_pos h2'] at hbc
                exact (Bool.false_ne_true hbc).elim
              · rw [if_neg h2'] at hbc
                rw [if_neg (by omega : ¬ a.toNat < c.toNat),
                  if_neg (by omega : ¬ c.toNat < a.toNat)]
                exact ih bs cs hab hbc

theorem pyStrLtb_eq_of_not_lt : ∀ a b, pyStrLtb a b = false → pyStrLtb b a = false → a = b := by
  intro a
  induction a with
  | nil =>
    intro b hab _
    cases b with
    | nil => rfl
    | cons b bs => simp [pyStrLtb] at hab
  | cons a as ih =>
    intro b hab hba
    cases b with
    | nil => simp [pyStrLtb] at hba
    | cons b bs =>
      simp only [pyStrLtb] at hab hba
      by_cases h1 : a.toNat < b.toNat
      · rw [if_pos h1] at hab
        simp at hab
      · rw [if_neg h1] at hab
        by_cases h2 : b.toNat < a.toNat
        · rw [if_pos h2] at hba
          simp at hba
        · rw [if_neg h2] at hab
          rw [if_neg h2, if_neg h1] at hba
          have hn : a.toNat = b.toNat := by omega
          have hhead : a = b := Char.eq_of_val_eq (UInt32.ext hn)
          rw [hhead, ih bs hab hba]

theorem foldl_pyMaxStep_mem : ∀ (xs : List (List Char)) (x : List Char),
    xs.foldl pyMaxStep x ∈ x :: xs := by
  intro xs
  induction xs with
  | nil => intro x; exact List.mem_singleton.mpr rfl
  | cons y ys ih =>
    intro x
    have h := ih (pyMaxStep x y)
    rw [List.foldl_cons]
    rcases List.mem_cons.mp h with h' | h'
    · rw [h']
      by_cases hc : pyStrLtb x y = true
      · simp [pyMaxStep, hc]
      · simp [pyMaxStep, hc]
    · simp [h']

theorem foldl_pyMaxStep_not_lt : ∀ (xs : List (List Char)) (x v : List Char), v ∈ x :: xs →
    pyStrLtb (xs.foldl pyMaxStep x) v = false := by
  intro xs
  induction xs with
  | nil =>
    intro x v hv
    rw [List.mem_singleton.mp hv]
    exact pyStrLtb_irrefl x
  | cons y ys ih =>
    intro x v hv
    rw [List.foldl_cons]
    have hm := ih (pyMaxStep x y)
    rcases List.mem_cons.mp hv with h' | h'
    · rw [h']
      by_cases hc : pyStrLtb x y = true
      · have hy : pyStrLtb (ys.foldl pyMaxStep (pyMaxStep x y)) y = false := by
          apply hm
          simp [pyMaxStep, hc]
        cases hx : pyStrLtb (ys.foldl pyMaxStep (pyMaxStep x y)) x with
        | false => rfl
        | true =>
          have := pyStrLtb_trans _ x y hx hc
          rw [this] at hy
          simp at hy
      · apply hm
        simp [pyMaxStep, hc]
    · rcases List.mem_cons.mp h' with h'' | h''
      · rw [h'']
        by_cases hc : pyStrLtb x y = true
        · apply hm
          simp [pyMaxStep, hc]
        · have hx : pyStrLtb (ys.foldl pyMaxStep (pyMaxStep x y)) x = false := by
            apply hm
            simp [pyMaxStep, hc]
          cases hv' : pyStrLtb (ys.foldl pyMaxStep (pyMaxStep x y)) y with
          | false => rfl
          | true =>
            cases hxm : pyStrLtb x (ys.foldl pyMaxStep (pyMaxStep x y)) with
            | true =>
              have := pyStrLtb_trans _ _ _ hxm hv'
              rw [this] at hc
              exact (hc rfl).elim
            | false =>
              have heq := pyStrLtb_eq_of_not_lt _ _ hxm hx
              rw [← heq] at hv'
              exact (hc hv').elim
      · exact hm v (List.mem_cons_of_mem _ h'')

theorem insertSorted_mem : ∀ (l : List (List Char)) (x z : List Char),
    z ∈ insertSorted x l ↔ z = x ∨ z ∈ l := by
  intro l x z
  induction l with
  | nil => simp [insertSorted]
  | cons y ys ih =>
    by_cases hc : pyStrLtb x y = true
    · simp [insertSorted, hc]
    · simp only [insertSorted, hc]
      simp only [Bool.false_eq_true, if_false, List.mem_cons, ih]
      tauto

theorem insertSorted_ne_nil (x : List Char) (l : List (List Char)) : insertSorted x l ≠ [] := by
  cases l with
  | nil => simp [insertSorted]
  | cons y ys =>
    by_cases hc : pyStrLtb x y = true <;> simp [insertSorted, hc]

theorem pySort_mem : ∀ (keys : List (List Char)) (z : List Char),
    z ∈ pySort keys ↔ z ∈ keys := by
  intro keys
  induction keys with
  | nil => intro z; simp [pySort]
  | cons k ks ih =>
    intro z
    show z ∈ insertSorted k (pySort ks) ↔ _
    rw [insertSorted_mem, ih z, List.mem_cons]

/-- C1 (confirmed): with no requested version, the resolver selects the
lexicographically greatest version string under plain string comparison: the
result is an available key, no available key compares strictly greater, every
other available key compares strictly smaller, and on `{"10.0", "9.9"}` the
selected version is `"9.9"`. -/
theorem resolve_default_lex_max (keys : List (List Char)) (hne : keys ≠ []) :
    (∃ m, resolveVersion none keys = some m ∧ m ∈ keys
      ∧ (∀ v ∈ keys, pyStrLtb m v = false)
      ∧ (∀ v ∈ keys, v ≠ m → pyStrLtb v m = true))
    ∧ resolveVersion none ["10.0".data, "9.9".data] = some "9.9".data := by
  refine ⟨?_, by decide⟩
  have hsne : pySort keys ≠ [] := by
    cases keys with
    | nil => exact (hne rfl).elim
    | cons k ks => exact insertSorted_ne_nil k (pySort ks)
  obtain ⟨x, xs, hx⟩ : ∃ x xs, pySort keys = x :: xs := by
    cases hs : pySort keys with
    | nil => exact (hsne hs).elim
    | cons x xs => exact ⟨x, xs, rfl⟩
  refine ⟨xs.foldl pyMaxStep x, ?_, ?_, ?_, ?_⟩
  · show pyMax (pySort keys) = _
    rw [hx]
    rfl
  · have := foldl_pyMaxStep_mem xs x
    rw [← hx] at this
    exact (pySort_mem keys _).mp this
  · intro v hv
    apply foldl_pyMaxStep_not_lt xs x v
    rw [← hx]
    exact (pySort_mem keys v).mpr hv
  · intro v hv hvne
    have hnot : pyStrLtb (xs.foldl pyMaxStep x) v = false := by
      apply foldl_pyMaxStep_not_lt xs x v
      rw [← hx]
      exact (pySort_mem keys v).mpr hv
    cases hvm : pyStrLtb v (xs.foldl pyMaxStep x) with
    | true => rfl
    | false => exact (hvne (pyStrLtb_eq_of_not_lt v _ hvm hnot)).elim

/-- Closed instance of C1 at the spec's two-element version set. -/
theorem resolve_default_lex_max_witness :
    ∃ m, resolveVersion none ["10.0".data, "9.9".data] = some m
      ∧ m ∈ ["10.0".data, "9.9".data]
      ∧ (∀ v ∈ (["10.0".data, "9.9".data] : List (List Char)), pyStrLtb m v = false)
      ∧ (∀ v ∈ (["10.0".data, "9.9".data] : List (List Char)), v ≠ m → pyStrLtb v m = true) :=
  (resolve_default_lex_max ["10.0".data, "9.9".data] (by decide)).1

/-! ## Direct-archive extraction (embedding of the MSVC package loop, lines 207-212) -/

/-- Python `str.split(sep)` for a one-character separator: `""` splits to
`[""]`, and separators at the ends produce empty components. -/
def splitChar (sep : Char) : List Char → List (List Char)
  | [] => [[]]
  | c :: rest =>
    if c = sep then [] :: splitChar sep rest
    else
      match splitChar sep rest with
      | [] => [[c]]
      | s :: ss => (c :: s) :: ss

/-- `pathlib.Path(name)` parts for a relative path: split on `/`, dropping
empty and `.` components. -/
def pyParts (s : List Char) : List (List Char) :=
  (splitChar '/' s).filter (fun c => c ≠ [] && c ≠ ['.'])

/-- The extraction loop over `z.namelist()`: each entry is a stored name with
its decompressed content; an entry whose name starts with `Contents/` is
written to `OUTPUT / Path(name).relative_to("Contents")` (parent directories
created as needed; here `root` stands for the output directory), any other
entry is skipped. The result is the ordered list of writes performed, each a
destination path (as components) with the bytes written. -/
def extractZip (root : List (List Char)) :
    List (List Char × List Nat) → List (List (List Char) × List Nat)
  | [] => []
  | (name, content) :: rest =>
    if "Contents/".data.isPrefixOf name then
      (root ++ (pyParts name).drop 1, content) :: extractZip root rest
    else
      extractZip root rest

/-- C6 (confirmed): extraction writes exactly the entries whose stored name
begins with the root marker `Contents/`, each at the output root joined with
the path relative to the marker, in archive order; entries outside the marker
produce no write and no error; in particular an archive holding
`Contents/a/b.h` and `Other/ignored.txt` writes only `a/b.h` under the root. -/
theorem extractZip_exactly_marked :
    (∀ (entries : List (List Char × List Nat)) (root : List (List Char)),
      extractZip root entries = entries.filterMap (fun e =>
        if "Contents/".data.isPrefixOf e.1 then
          some (root ++ (pyParts e.1).drop 1, e.2)
        else none))
    ∧ extractZip ["msvc".data] [("Contents/a/b.h".data, [1]), ("Other/ignored.txt".data, [2])]
        = [(["msvc".data, "a".data, "b.h".data], [1])] := by
  refine ⟨fun entries root => ?_, by decide⟩
  induction entries with
  | nil => rfl
  | cons e rest ih =>
    obtain ⟨name, content⟩ := e
    by_cases hc : "Contents/".data <+: name
    · simp [extractZip, hc, List.filterMap_cons, ih]
    · simp [extractZip, hc, List.filterMap_cons, ih]

/-! ## Manifest fetch with certificate retry (embedding of lines 96-113) -/

/-- How one attempt to download the channel manifest can end: success, a
`urllib.error.URLError` whose `args[0]` is an `ssl.SSLCertVerificationError`,
any other `URLError`, or an exception the `except` clause does not catch. -/
inductive NetErr where
  | certURL
  | otherURL
  | uncaught
deriving DecidableEq

/-- The outcome of one network attempt. -/
inductive NetResult where
  | ok (manifest : List Nat)
  | err (e : NetErr)
deriving DecidableEq

/-- The observable outcome of the manifest-fetch block: a manifest, an
exception propagating out of the block, or the `exit()` taken when the
`certifi` package is missing. -/
inductive FetchResult where
  | ok (manifest : List Nat)
  | raised (e : NetErr)
  | exited
deriving DecidableEq

/-- Lines 96-113: try the download with the default TLS context; on a
`URLError` carrying a certificate-verification error, build an `ssl_context`
from the certifi trust bundle (exiting if `certifi` cannot be imported) and
download once more with no further handler; any other `URLError` is
re-raised, and non-`URLError` exceptions are not caught at all. The first
component counts the download attempts made; `netDefault` and `netCertifi`
are what the network returns under the default and the certifi contexts. -/
def fetchManifest (hasCertifi : Bool) (netDefault netCertifi : NetResult) : Nat × FetchResult :=
  match netDefault with
  | .ok m => (1, .ok m)
  | .err .certURL =>
    if hasCertifi then
      match netCertifi with
      | .ok m => (2, .ok m)
      | .err e => (2, .raised e)
    else (1, .exited)
  | .err e => (1, .raised e)

/-- C7 (confirmed): a certificate-verification failure of the initial fetch is
retried exactly once, against the alternate (certifi) trust bundle, and that
second outcome is final — in particular a second certificate failure is
raised after exactly two attempts, not retried again; any other
transport-level error propagates after exactly one attempt, with no retry. -/
theorem manifest_cert_retry :
    (∀ m, fetchManifest true (NetResult.err NetErr.certURL) (NetResult.ok m)
      = (2, FetchResult.ok m))
    ∧ (∀ e, fetchManifest true (NetResult.err NetErr.certURL) (NetResult.err e)
      = (2, FetchResult.raised e))
    ∧ (∀ (h : Bool) (e : NetErr) (r : NetResult), e ≠ NetErr.certURL →
      fetchManifest h (NetResult.err e) r = (1, FetchResult.raised e)) := by
  refine ⟨fun m => rfl, fun e => rfl, fun h e r hne => ?_⟩
  cases e with
  | certURL => exact (hne rfl).elim
  | otherURL => rfl
  | uncaught => rfl

/-- Closed instance of C7: a non-certificate transport error propagates
unretried. -/
theorem manifest_cert_retry_witness :
    fetchManifest true (NetResult.err NetErr.otherURL) (NetResult.ok [])
      = (1, FetchResult.raised NetErr.otherURL) :=
  manifest_cert_retry.2.2 true NetErr.otherURL (NetResult.ok []) (by decide)

/-! ## Compiler version scan (embedding of lines 134-138) -/

/-- Python `sep.join(parts)` for a one-character separator. -/
def joinChar (sep : Char) : List (List Char) → List Char
  | [] => []
  | [s] => s
  | s :: ss => s ++ sep :: joinChar sep ss

/-- The lowercased compiler-component template start of line 135,
`"Microsoft.VisualStudio.Component.VC.".lower()`. -/
def vcPre : List Char := "microsoft.visualstudio.component.vc.".data

/-- The lowercased template end of line 135, `".x86.x64".lower()`. -/
def vcSuf : List Char := ".x86.x64".data

/-- Lines 134-138, for one (already lowercased) index key `pid`: when the key
starts with the compiler-component template start and ends with its end,
extract `pver = ".".join(pid.split(".")[4:6])` and accept it into the `msvc`
map when `pver[0].isnumeric()`; `none` means the key contributes no version.
`str.isnumeric` consults the Python runtime\'s Unicode numeric tables, which
are external to this repository, so the scan is parameterized by that
predicate `isnum`; the one fact about it that a theorem needs — on code
points below 128 Python\'s `isnumeric` accepts exactly the decimal digits
`0`-`9` — is taken there as an explicit hypothesis. The `[]` branch of the
inner match is unreachable: a key passing the guard always has a fifth
dot-component (Python would raise an IndexError on `pver[0]` there). -/
def msvcScan (isnum : Char → Bool) (pid : List Char) : Option (List Char) :=
  if vcPre.isPrefixOf pid && vcSuf.isSuffixOf pid then
    match joinChar '.' (((splitChar '.' pid).drop 4).take 2) with
    | [] => none
    | c :: cs => if isnum c then some (c :: cs) else none
  else none

/-- The compiler-component template instantiated at version components `A`
and `B`. -/
def vcKeyOf (A B : List Char) : List Char := vcPre ++ A ++ '.' :: B ++ vcSuf

theorem isPrefixOf_append_self {α : Type} [BEq α] [LawfulBEq α] (l r : List α) :
    l.isPrefixOf (l ++ r) = true := by
  induction l with
  | nil => cases r <;> rfl
  | cons a as ih => simp [List.isPrefixOf, ih]

theorem isSuffixOf_append_self {α : Type} [BEq α] [LawfulBEq α] (l r : List α) :
    r.isSuffixOf (l ++ r) = true := by
  simp only [List.isSuffixOf, List.reverse_append]
  exact isPrefixOf_append_self r.reverse l.reverse

theorem splitChar_sep_append (sep : Char) (xs ys : List Char) (h : sep ∉ xs) :
    splitChar sep (xs ++ sep :: ys) = xs :: splitChar sep ys := by
  induction xs with
  | nil => simp [splitChar]
  | cons c cs ih =>
    have hc : c ≠ sep := fun he => h (he ▸ List.mem_cons_self c cs)
    have hmem : sep ∉ cs := fun hm => h (List.mem_cons_of_mem c hm)
    show splitChar sep (c :: (cs ++ sep :: ys)) = _
    rw [splitChar, if_neg hc, ih hmem]

/-- C8 (confirmed): for a key built from the compiler-component template with
dot-free version components `A = a·A\'` and `B`, the extracted version is the
dot-join of components 4 and 5 of the dot-split key, namely `A.B`; the key is
accepted into the compiler version map exactly when `isnumeric` holds of the
first character of `A`; and since Python\'s `isnumeric` below code point 128
accepts exactly the decimal digits, an ASCII-leading `A` — package
identifiers are ASCII — is accepted exactly when it starts with a digit. -/
theorem msvc_scan_template (isnum : Char → Bool) (a : Char) (A B : List Char)
    (hA : '.' ∉ a :: A) (hB : '.' ∉ B) :
    joinChar '.' (((splitChar '.' (vcKeyOf (a :: A) B)).drop 4).take 2) = (a :: A) ++ '.' :: B
    ∧ msvcScan isnum (vcKeyOf (a :: A) B)
      = (if isnum a = true then some ((a :: A) ++ '.' :: B) else none)
    ∧ ((∀ c : Char, c.toNat < 128 → isnum c = c.isDigit) → a.toNat < 128 →
      msvcScan isnum (vcKeyOf (a :: A) B)
        = (if a.isDigit = true then some ((a :: A) ++ '.' :: B) else none)) := by
  have hnest : vcKeyOf (a :: A) B = vcPre ++ ((a :: A) ++ '.' :: (B ++ vcSuf)) := by
    simp [vcKeyOf, List.append_assoc]
  have hkey : vcKeyOf (a :: A) B
      = "microsoft".data ++ '.' :: ("visualstudio".data ++ '.' :: ("component".data
        ++ '.' :: ("vc".data ++ '.' :: ((a :: A)
        ++ '.' :: (B ++ '.' :: ("x86".data ++ '.' :: "x64".data)))))) :=
    hnest.trans rfl
  have hsplit : splitChar '.' (vcKeyOf (a :: A) B)
      = "microsoft".data :: "visualstudio".data :: "component".data :: "vc".data
        :: (a :: A) :: B :: "x86".data :: [ "x64".data ] := by
    rw [hkey, splitChar_sep_append _ _ _ (by decide), splitChar_sep_append _ _ _ (by decide),
      splitChar_sep_append _ _ _ (by decide), splitChar_sep_append _ _ _ (by decide),
      splitChar_sep_append _ _ _ hA, splitChar_sep_append _ _ _ hB,
      splitChar_sep_append _ _ _ (by decide)]
    rfl
  have hjoin : joinChar '.' (((splitChar '.' (vcKeyOf (a :: A) B)).drop 4).take 2)
      = (a :: A) ++ '.' :: B := by
    rw [hsplit]
    rfl
  have hpre : vcPre.isPrefixOf (vcKeyOf (a :: A) B) = true := by
    rw [hnest]
    exact isPrefixOf_append_self _ _
  have hsuf : vcSuf.isSuffixOf (vcKeyOf (a :: A) B) = true :=
    isSuffixOf_append_self (vcPre ++ (a :: A) ++ '.' :: B) vcSuf
  have hscan : msvcScan isnum (vcKeyOf (a :: A) B)
      = (if isnum a = true then some ((a :: A) ++ '.' :: B) else none) := by
    simp only [msvcScan, hpre, hsuf, Bool.and_self, if_true, hjoin, List.cons_append]
  refine ⟨hjoin, hscan, fun hagree ha => ?_⟩
  rw [hscan, hagree a ha]

/-- Closed instance of C8 at the key
`microsoft.visualstudio.component.vc.14.29.x86.x64`, with every hypothesis
discharged at a concrete input. -/
theorem msvc_scan_template_witness :
    msvcScan Char.isDigit (vcKeyOf ('1' :: "4".data) "29".data)
      = (if ('1' : Char).isDigit = true then some (('1' :: "4".data) ++ '.' :: "29".data)
        else none) :=
  (msvc_scan_template Char.isDigit '1' "4".data "29".data (by decide) (by decide)).2.2
    (fun _ _ => rfl) (by decide)
